import Mathlib

/-!
Verification of the package-cache core of `elba` (`src/lib/retrieve/cache.rs`).

The on-disk state is embedded shallowly as a finite tree of directories and
files (`FsTree`); paths are lists of components.  External collaborators that
are not part of this repository (the `sha2` and `tar` crates, the manifest
parser, and the outcomes of fallible OS calls such as directory locking,
reads, clears, copies and retrievals) are collected in an environment record
`Env` of explicit functions, so every cache operation is a pure function of
its inputs, the filesystem tree and that environment.
-/

/-- A filesystem path, as its list of components. -/
abbrev FsPath := List String

/-- A filesystem tree: a file with its contents, or a directory mapping
component names to subtrees. -/
inductive FsTree where
  | file (data : String)
  | dir (entries : List (String × FsTree))

/-- Look up a key in a directory listing. -/
def lookupEntry (es : List (String × FsTree)) (k : String) : Option FsTree :=
  match es with
  | [] => none
  | (k', t) :: rest => if k' = k then some t else lookupEntry rest k

/-- Replace the entry for a key in a directory listing (append if absent). -/
def replaceEntry (es : List (String × FsTree)) (k : String) (t : FsTree) :
    List (String × FsTree) :=
  match es with
  | [] => [(k, t)]
  | (k', u) :: rest =>
    if k' = k then (k, t) :: rest else (k', u) :: replaceEntry rest k t

/-- Look up the subtree at a path. -/
def FsTree.find? : FsTree → FsPath → Option FsTree
  | t, [] => some t
  | .file _, _ :: _ => none
  | .dir es, k :: rest =>
    match lookupEntry es k with
    | some t => t.find? rest
    | none => none

/-- Write a subtree at a path, creating (or overwriting) intermediate
directories as needed; other entries are untouched. -/
def FsTree.setAt : FsTree → FsPath → FsTree → FsTree
  | _, [], t => t
  | .file _, k :: rest, t => .dir [(k, FsTree.setAt (.dir []) rest t)]
  | .dir es, k :: rest, t =>
    .dir (replaceEntry es k (FsTree.setAt ((lookupEntry es k).getD (.dir [])) rest t))

/-- Two paths diverge when they differ at some common position: neither is a
prefix of the other. -/
def FsPath.diverges : FsPath → FsPath → Bool
  | [], _ => false
  | _, [] => false
  | a :: as, b :: bs => if a = b then FsPath.diverges as bs else true

/-- The bytes of a string (one abstract byte per character). -/
def strBytes (s : String) : List Nat := s.data.map Char.toNat

/-- Modelled from the spec: `util::hexify_hash` hex-encodes a byte sequence,
two lowercase hex digits per byte (`util` is not under `src/`). -/
def hexDigitChar (n : Nat) : Char :=
  if n < 10 then Char.ofNat (48 + n) else Char.ofNat (87 + n)

def hexify_hash (bytes : List Nat) : String :=
  String.mk (bytes.flatMap (fun b => [hexDigitChar (b / 16), hexDigitChar (b % 16)]))

/-- Modelled from the spec: a package name is a two-part qualified identifier
`group/name` (`package::Name` is not under `src/`). -/
structure Name where
  group : String
  name : String
deriving DecidableEq

/-- Modelled from the spec: `Name::as_bytes` is the byte string of the raw
rendering `group/name`. -/
def Name.as_bytes (n : Name) : List Nat := strBytes (n.group ++ "/" ++ n.name)

/-- Modelled from the spec: a semantic version; only its `to_string`
rendering reaches the cache, so it is kept as that rendering. -/
abbrev Version := String

/-- Modelled from the spec: the parsed `elba.toml`; the cache only uses the
`summary()` view, here the declared name (and version). -/
structure Manifest where
  name : Name
  version : Version
deriving DecidableEq

/-- `DirectRes` (`package::resolution`, not under `src/`): tagged source
locator with tarball, VCS and local-directory variants, modelled from the
spec. -/
inductive DirectRes where
  | tar (url : String) (cksum : String)
  | git (url : String) (refr : String)
  | dir (url : FsPath)
deriving DecidableEq

/-- Modelled from the spec: the canonical, stable string form of a
`DirectRes` (`to_string`). -/
def DirectRes.render : DirectRes → String
  | .tar url cksum => "tar+" ++ url ++ "#" ++ cksum
  | .git url refr => "git+" ++ url ++ "#" ++ refr
  | .dir url => "dir+" ++ String.intercalate "/" url

def DirectRes.isDir : DirectRes → Bool
  | .dir _ => true
  | _ => false

def DirectRes.isTar : DirectRes → Bool
  | .tar _ _ => true
  | _ => false

/-- Modelled from the spec: a `PackageId` is a `Name` plus a resolution
source; the cache only reads `pkg.name()`. -/
structure PackageId where
  name : Name
  res : DirectRes
deriving DecidableEq

/-- An index as the cache sees it: its resolution and the resolutions of the
indices it depends on (`ix.depends().iter().map(|i| i.res)`). -/
structure Index where
  res : DirectRes
  depends : List DirectRes
deriving DecidableEq

/-- The error kinds surfaced by the cache operations under verification.
`nameMismatch` models the `bail!` whose message mentions the declared and the
found name. -/
inductive ErrKind where
  | missingManifest
  | invalidIndex
  | nameMismatch (declared : Name) (found : Name)
  | lockBusy
  | io
deriving DecidableEq

/-- Observable side effects of a source load, used to state that the
Retriever is (or is not) invoked. -/
inductive Event where
  | acquired (p : FsPath)
  | retrieved (loc : DirectRes) (dest : FsPath)
deriving DecidableEq

/-- The environment of external collaborators: the `sha2` and `tar` crates,
the manifest and index parsers, and the outcomes of the fallible OS calls
(locking, reading, clearing, copying, creating, retrieving).  Each is an
explicit function so that every cache operation is deterministic in
`(inputs, filesystem, Env)`. -/
structure Env where
  sha : List Nat → List Nat
  tarArchive : String → FsTree → List Nat
  parseManifest : String → Option Manifest
  lockOk : FsPath → Bool
  readOk : FsPath → Bool
  clearOk : FsPath → Bool
  copyOk : FsPath → FsPath → Bool
  mkdirOk : FsPath → Bool
  retrieveOk : DirectRes → Bool
  retrieveContent : DirectRes → FsTree
  indexDirExists : DirectRes → Bool
  indexFromDisk : DirectRes → Option (List DirectRes)

/-- `fs::create_dir_all`: ensure a directory exists, keeping it if present. -/
def create_dir_all (fs : FsTree) (p : FsPath) : FsTree :=
  if (fs.find? p).isSome then fs else fs.setAt p (.dir [])

/-- Modelled from the spec: `util::clear_dir` empties the directory at `p`. -/
def clear_dir (fs : FsTree) (p : FsPath) : FsTree := fs.setAt p (.dir [])

/-- Modelled from the spec: `util::copy_dir` recursively copies the contents
of `src` into `dest`. -/
def copy_dir (fs : FsTree) (src dest : FsPath) : FsTree :=
  fs.setAt dest ((fs.find? src).getD (.dir []))

/-- Modelled from the spec: `DirLock::acquire` creates the path if absent;
whether the lock itself can be obtained is `Env.lockOk`. -/
def acquireEffect (fs : FsTree) (p : FsPath) : FsTree := create_dir_all fs p

/-- A ''create_dir_all, ignoring the result'' call (`let _ = ...`) inside the
layout constructors: the attempt itself may fail (`Env.mkdirOk`), and any
failure is swallowed. -/
def tryCreate (env : Env) (fs : FsTree) (p : FsPath) : FsTree :=
  if env.mkdirOk p then create_dir_all fs p else fs

/-- The seven-directory record of a cache root (`Layout`).  The directory
creation attempts of the Rust constructor are side effects no claim depends
on and are not modelled. -/
structure Layout where
  root : FsPath
  artifacts : FsPath
  bin : FsPath
  src : FsPath
  build : FsPath
  tmp : FsPath
  indices : FsPath
deriving DecidableEq

/-- `Layout::new`: the seven paths derived from the root. -/
def Layout.new (root : FsPath) : Layout :=
  { root := root
    bin := root ++ ["bin"]
    artifacts := root ++ ["artifacts"]
    src := root ++ ["src"]
    build := root ++ ["build"]
    indices := root ++ ["indices"]
    tmp := root ++ ["tmp"] }

/-- The six-path record of a per-build output tree (`OutputLayout`). -/
structure OutputLayout where
  root : FsPath
  artifacts : FsPath
  bin : FsPath
  lib : FsPath
  build : FsPath
  deps : FsPath
deriving DecidableEq

/-- The `OutputLayout` record derived from a locked root. -/
def outputLayoutOf (root : FsPath) : OutputLayout :=
  { root := root
    artifacts := root ++ ["artifacts"]
    bin := root ++ ["bin"]
    lib := root ++ ["lib"]
    build := root ++ ["build"]
    deps := root ++ ["deps"] }

/-- `OutputLayout::new`: build the record, then attempt to create `root`,
`bin`, `lib`, `build` and `deps`, ignoring every error.  (The source does
not attempt to create `artifacts`.) -/
def OutputLayout.new (env : Env) (lockPath : FsPath) (fs : FsTree) :
    OutputLayout × FsTree :=
  let layout := outputLayoutOf lockPath
  let fs := tryCreate env fs layout.root
  let fs := tryCreate env fs layout.bin
  let fs := tryCreate env fs layout.lib
  let fs := tryCreate env fs layout.build
  let fs := tryCreate env fs layout.deps
  (layout, fs)

/-- A `Source`: parsed manifest, originating resolution, locked path, and
content hash (the `Arc`/`DirLock` plumbing carries no data and is
collapsed). -/
structure Source where
  meta : Manifest
  location : DirectRes
  path : FsPath
  hash : String
deriving DecidableEq

/-- A built library: the locked build-artifact directory. -/
structure Binary where
  target : FsPath
deriving DecidableEq

/-- An opaque build fingerprint (`BuildHash(String)`). -/
structure BuildHash where
  val : String
deriving DecidableEq

/-- `Cache::get_source_dir`: SHA-256 over the name bytes, the canonical
resolution string, and — only for a `Tar` resolution with a version
supplied — the version string; rendered as `group_name-hex`. -/
def get_source_dir (env : Env) (name : Name) (loc : DirectRes) (v : Option Version) :
    String :=
  let input := name.as_bytes ++ strBytes loc.render
  let input :=
    match v with
    | some ver =>
      match loc with
      | .tar _ _ => input ++ strBytes ver
      | _ => input
    | none => input
  name.group ++ "_" ++ name.name ++ "-" ++ hexify_hash (env.sha input)

/-- The source-directory name exactly as §4.4 of the spec words it:
`SHA-256(name.bytes || res.canonical_string().bytes || maybe_version)` where
`maybe_version` is appended iff the variant is `Tar` and a version was
supplied, hex-encoded into `"<group>_<name>-<hex>"`. -/
def source_dir_name_spec (sha : List Nat → List Nat) (name : Name) (loc : DirectRes)
    (v : Option Version) : String :=
  let maybeVersion : List Nat :=
    if loc.isTar then (match v with | some ver => strBytes ver | none => []) else []
  name.group ++ "_" ++ name.name ++ "-" ++
    hexify_hash (sha (name.as_bytes ++ strBytes loc.render ++ maybeVersion))

/-- `Cache::check_source`: a `Dir` resolution is answered with its own path;
otherwise the hashed directory under `layout.src` is answered iff it
exists. -/
def check_source (env : Env) (layout : Layout) (name : Name) (loc : DirectRes)
    (v : Option Version) (fs : FsTree) : Option FsPath :=
  match loc with
  | .dir url => some url
  | _ =>
    let path := layout.src ++ [get_source_dir env name loc v]
    if (fs.find? path).isSome then some path else none

/-- `Cache::load_source`: on a cache hit acquire the found path; on a miss
acquire the hashed directory under `layout.src` and invoke the Retriever. -/
def load_source (env : Env) (layout : Layout) (pkg : PackageId) (loc : DirectRes)
    (v : Option Version) (fs : FsTree) :
    Except ErrKind FsPath × FsTree × List Event :=
  match check_source env layout pkg.name loc v fs with
  | some path =>
    if env.lockOk path then (.ok path, acquireEffect fs path, [.acquired path])
    else (.error .lockBusy, fs, [])
  | none =>
    let p := layout.src ++ [get_source_dir env pkg.name loc v]
    if env.lockOk p then
      let fs := acquireEffect fs p
      if env.retrieveOk loc then
        (.ok p, fs.setAt p (env.retrieveContent loc), [.acquired p, .retrieved loc p])
      else (.error .io, fs, [.acquired p])
    else (.error .lockBusy, fs, [])

/-- `Source::from_folder`: open and read `<dir>/elba.toml` (absence is
`MissingManifest`; an unreadable file — including `elba.toml` being a
directory, where `open` succeeds and `read_to_string` fails — is
`InvalidIndex`), parse it (failure is `InvalidIndex`), check the declared
name, then hash an in-memory tar of the directory built under the fixed
top-level entry name `"irrelevant"`. -/
def Source.from_folder (env : Env) (pkg : PackageId) (path : FsPath)
    (location : DirectRes) (fs : FsTree) : Except ErrKind Source :=
  match fs.find? (path ++ ["elba.toml"]) with
  | none => .error .missingManifest
  | some (.dir _) => .error .invalidIndex
  | some (.file contents) =>
    if env.readOk (path ++ ["elba.toml"]) = false then .error .invalidIndex
    else
      match env.parseManifest contents with
      | none => .error .invalidIndex
      | some manifest =>
        if manifest.name = pkg.name then
          .ok { meta := manifest
                location := location
                path := path
                hash := hexify_hash (env.sha (env.tarArchive "irrelevant"
                  ((fs.find? path).getD (.dir [])))) }
        else .error (.nameMismatch pkg.name manifest.name)

/-- `Cache::checkout_source`: load the source directory, then parse it into a
`Source`. -/
def checkout_source (env : Env) (layout : Layout) (pkg : PackageId) (loc : DirectRes)
    (v : Option Version) (fs : FsTree) :
    Except ErrKind Source × FsTree × List Event :=
  match load_source env layout pkg loc v fs with
  | (.ok p, fs', evs) => (Source.from_folder env pkg p loc fs', fs', evs)
  | (.error e, fs', evs) => (.error e, fs', evs)

/-- `Cache::check_build`: `layout.root / "build" / hash` iff it exists. -/
def check_build (layout : Layout) (hash : BuildHash) (fs : FsTree) : Option FsPath :=
  let path := (layout.root ++ ["build"]) ++ [hash.val]
  if (fs.find? path).isSome then some path else none

/-- `Cache::checkout_build`: a lock on the stored build iff it exists;
`none` (not an error) otherwise. -/
def checkout_build (env : Env) (layout : Layout) (hash : BuildHash) (fs : FsTree) :
    Except ErrKind (Option Binary) × FsTree :=
  match check_build layout hash fs with
  | some path =>
    if env.lockOk path then (.ok (some ⟨path⟩), acquireEffect fs path)
    else (.error .lockBusy, fs)
  | none => (.ok none, fs)

/-- `Cache::checkout_tmp`: acquire `layout.tmp / hash`, clear it, and wrap it
in a fresh `OutputLayout`. -/
def checkout_tmp (env : Env) (layout : Layout) (hash : BuildHash) (fs : FsTree) :
    Except ErrKind OutputLayout × FsTree :=
  let path := layout.tmp ++ [hash.val]
  if env.lockOk path then
    let fs := acquireEffect fs path
    if env.clearOk path then
      let fs := clear_dir fs path
      let (ol, fs) := OutputLayout.new env path fs
      (.ok ol, fs)
    else (.error .io, fs)
  else (.error .lockBusy, fs)

/-- `Cache::store_build`: ensure `layout.build / hash` exists, acquire its
lock, clear it, then recursively copy `from` into it.  The filesystem state
is returned on every exit path: mutations made before a failure persist. -/
def store_build (env : Env) (layout : Layout) (fr : FsPath) (hash : BuildHash)
    (fs : FsTree) : Except ErrKind Binary × FsTree :=
  let dest := layout.build ++ [hash.val]
  let fs := if (fs.find? dest).isSome then fs else create_dir_all fs dest
  if env.lockOk dest then
    let fs := acquireEffect fs dest
    if env.clearOk dest then
      let fs := clear_dir fs dest
      if env.copyOk fr dest then (.ok ⟨dest⟩, copy_dir fs fr dest)
      else (.error .io, fs)
    else (.error .io, fs)
  else (.error .lockBusy, fs)

/-- `Cache::get_index_dir`: hex SHA-256 of the canonical resolution string. -/
def get_index_dir (env : Env) (loc : DirectRes) : String :=
  hexify_hash (env.sha (strBytes loc.render))

/-- The outcome of one attempt of the `get_indices` loop body on a fresh
resolution: `some deps` when a lock was obtained and the index parsed from
disk (for a non-`Dir` resolution, after an on-disk hit or a successful
retrieval), `none` on any failure. -/
def indexAttempt (env : Env) (layout : Layout) (res : DirectRes) :
    Option (List DirectRes) :=
  match res with
  | .dir url => if env.lockOk url then env.indexFromDisk res else none
  | _ =>
    if env.lockOk (layout.indices ++ [get_index_dir env res]) then
      if env.indexDirExists res then env.indexFromDisk res
      else if env.retrieveOk res then env.indexFromDisk res
      else none
    else none

/-- The worklist loop of `Cache::get_indices`.  Lock, existence, retrieval
and parse outcomes are abstracted into `Env` (keyed by the resolution); the
loop itself — FIFO queue, `seen` dedup list, silent `continue` on every
failure — follows the source.  `fuel` bounds the number of iterations of the
Rust `while let`, which has no intrinsic bound. -/
def getIndicesAux (env : Env) (layout : Layout) :
    Nat → List DirectRes → List DirectRes → List Index → List Index
  | 0, _, _, acc => acc
  | _ + 1, [], _, acc => acc
  | fuel + 1, res :: q, seen, acc =>
    if res ∈ seen then getIndicesAux env layout fuel q seen acc
    else
      match res with
      | .dir url =>
        if env.lockOk url then
          match env.indexFromDisk res with
          | some deps =>
            getIndicesAux env layout fuel (q ++ deps) (seen ++ [res]) (acc ++ [⟨res, deps⟩])
          | none => getIndicesAux env layout fuel q seen acc
        else getIndicesAux env layout fuel q seen acc
      | _ =>
        if env.lockOk (layout.indices ++ [get_index_dir env res]) then
          if env.indexDirExists res then
            match env.indexFromDisk res with
            | some deps =>
              getIndicesAux env layout fuel (q ++ deps) (seen ++ [res]) (acc ++ [⟨res, deps⟩])
            | none => getIndicesAux env layout fuel q seen acc
          else if env.retrieveOk res then
            match env.indexFromDisk res with
            | some deps =>
              getIndicesAux env layout fuel (q ++ deps) (seen ++ [res]) (acc ++ [⟨res, deps⟩])
            | none => getIndicesAux env layout fuel q seen acc
          else getIndicesAux env layout fuel q seen acc
        else getIndicesAux env layout fuel q seen acc

/-- `Cache::get_indices`: breadth-first worklist discovery seeded with the
declared index resolutions. -/
def get_indices (env : Env) (layout : Layout) (fuel : Nat)
    (seeds : List DirectRes) : List Index :=
  getIndicesAux env layout fuel seeds [] []

/-- Modelled from the spec: `util::graph::Graph` (not under `src/`) exposes
`find_id` and the sub-tree traversal in the graph's intrinsic order. -/
structure Graph (α : Type) where
  find_id : α → Option Nat
  sub_tree : Nat → List (Nat × α)

/-- `BuildHash::new`: SHA-256 over the concatenated content hashes of the
sub-tree rooted at `root`.  `find_id(root).unwrap()` panics when `root` is
not in the graph; the panic is modelled as `none`. -/
def BuildHash.new (sha : List Nat → List Nat) (root : Source) (sources : Graph Source) :
    Option BuildHash :=
  match sources.find_id root with
  | none => none
  | some i =>
    some ⟨hexify_hash (sha ((sources.sub_tree i).flatMap (fun p => strBytes p.2.hash)))⟩


/-- A concrete all-succeeding environment, used by witnesses and
counterexamples. -/
def envA : Env where
  sha := fun l => l
  tarArchive := fun _ _ => []
  parseManifest := fun s => if s = "m" then some ⟨⟨"g", "n"⟩, "1.0.0"⟩ else none
  lockOk := fun _ => true
  readOk := fun _ => true
  clearOk := fun _ => true
  copyOk := fun _ _ => true
  mkdirOk := fun _ => true
  retrieveOk := fun _ => true
  retrieveContent := fun _ => FsTree.dir []
  indexDirExists := fun _ => true
  indexFromDisk := fun _ => some []

/-- `envA` with every recursive copy failing. -/
def envCopyFail : Env := { envA with copyOk := fun _ _ => false }

/-- `envA` with every read failing. -/
def envReadFail : Env := { envA with readOk := fun _ => false }

/-- `envA` where index `git "a" "m"` depends on index `git "b" "m"`. -/
def envB : Env :=
  { envA with indexFromDisk := fun r =>
      if r = DirectRes.git "a" "m" then some [DirectRes.git "b" "m"] else some [] }

/-- A concrete package whose name matches the manifest `envA` parses. -/
def pkgA : PackageId := ⟨⟨"g", "n"⟩, DirectRes.git "u" "m"⟩

/-- A concrete source directory holding a parsable manifest. -/
def treeA : FsTree := FsTree.dir [("elba.toml", FsTree.file "m")]

/-- A concrete cache layout. -/
def layoutA : Layout := Layout.new ["c"]

/-- A concrete source and one-node graph for the build-hash witness. -/
def srcA : Source := ⟨⟨⟨"g", "n"⟩, "1.0.0"⟩, DirectRes.git "u" "m", ["p"], "h1"⟩

def graphA : Graph Source :=
  ⟨fun s => if s = srcA then some 0 else none,
   fun i => if i = 0 then [(0, srcA)] else []⟩


theorem lookupEntry_replaceEntry_self (es : List (String × FsTree)) (k : String) (t : FsTree) :
    lookupEntry (replaceEntry es k t) k = some t := by
  induction es with
  | nil => simp [replaceEntry, lookupEntry]
  | cons hd tl ih =>
    obtain ⟨k', u⟩ := hd
    by_cases h : k' = k
    · simp [replaceEntry, h, lookupEntry]
    · simp [replaceEntry, h, lookupEntry, ih]

theorem lookupEntry_replaceEntry_ne (es : List (String × FsTree)) (k k' : String) (t : FsTree)
    (h : k' ≠ k) : lookupEntry (replaceEntry es k t) k' = lookupEntry es k' := by
  induction es with
  | nil =>
    simp only [replaceEntry, lookupEntry]
    rw [if_neg (fun h' => h h'.symm)]
  | cons hd tl ih =>
    obtain ⟨k'', u⟩ := hd
    by_cases h2 : k'' = k
    · subst h2
      simp [replaceEntry, lookupEntry, Ne.symm h, ih]
    · simp [replaceEntry, h2, lookupEntry, ih]

/-- Reading the path just written gives back the written subtree. -/
theorem find?_setAt_self (fs : FsTree) (p : FsPath) (t : FsTree) :
    (fs.setAt p t).find? p = some t := by
  induction p generalizing fs with
  | nil => simp [FsTree.setAt, FsTree.find?]
  | cons k rest ih =>
    cases fs with
    | file d => simp [FsTree.setAt, FsTree.find?, lookupEntry, ih]
    | dir es => simp [FsTree.setAt, FsTree.find?, lookupEntry_replaceEntry_self, ih]

/-- Writing strictly below an existing subtree rewrites inside that subtree. -/
theorem find?_setAt_append (fs : FsTree) (p q : FsPath) (u t : FsTree)
    (h : fs.find? p = some u) :
    (fs.setAt (p ++ q) t).find? p = some (u.setAt q t) := by
  induction p generalizing fs with
  | nil =>
    simp only [FsTree.find?, Option.some.injEq] at h
    subst h
    simp [FsTree.find?]
  | cons k rest ih =>
    cases fs with
    | file d => simp [FsTree.find?] at h
    | dir es =>
      simp only [FsTree.find?] at h
      cases hl : lookupEntry es k with
      | none => rw [hl] at h; exact absurd h (by simp)
      | some v =>
        rw [hl] at h
        simp only [List.cons_append, FsTree.setAt, hl, FsTree.find?,
          lookupEntry_replaceEntry_self, Option.getD_some]
        exact ih v h

theorem FsPath.diverges_nil (p : FsPath) : FsPath.diverges p [] = false := by
  cases p <;> rfl

/-- Writing at a path that diverges from `q` does not change what is read
at `q`. -/
theorem find?_setAt_diverges (fs : FsTree) (p q : FsPath) (t : FsTree)
    (h : FsPath.diverges p q = true) :
    (fs.setAt p t).find? q = fs.find? q := by
  induction p generalizing fs q with
  | nil => exact absurd h (by simp [FsPath.diverges])
  | cons a as ih =>
    cases q with
    | nil => rw [FsPath.diverges_nil] at h; exact absurd h (by simp)
    | cons b bs =>
      simp only [FsPath.diverges] at h
      by_cases hab : a = b
      · subst hab
        rw [if_pos rfl] at h
        have hbs : bs ≠ [] := by
          intro hbs
          subst hbs
          rw [FsPath.diverges_nil] at h
          exact absurd h (by simp)
        cases fs with
        | file d =>
          have he : ((FsTree.dir []).setAt as t).find? bs = (FsTree.dir []).find? bs :=
            ih _ _ h
          simp only [FsTree.setAt, FsTree.find?, lookupEntry, if_pos rfl, he]
          cases bs with
          | nil => exact absurd rfl hbs
          | cons b' bs' => simp [FsTree.find?, lookupEntry, he]
        | dir es =>
          cases hl : lookupEntry es a with
          | none =>
            have he : ((FsTree.dir []).setAt as t).find? bs = (FsTree.dir []).find? bs :=
              ih _ _ h
            simp only [FsTree.setAt, FsTree.find?, lookupEntry_replaceEntry_self, hl,
              Option.getD_none, he]
            cases bs with
            | nil => exact absurd rfl hbs
            | cons b' bs' => simp [FsTree.find?, lookupEntry, he]
          | some v =>
            simp only [FsTree.setAt, FsTree.find?, lookupEntry_replaceEntry_self, hl,
              Option.getD_some]
            exact ih v bs h
      · cases fs with
        | file d =>
          simp [FsTree.setAt, FsTree.find?, lookupEntry, Ne.symm hab, hab]
        | dir es =>
          simp [FsTree.setAt, FsTree.find?,
            lookupEntry_replaceEntry_ne es a b _ (Ne.symm hab)]

/-- Lookup along a concatenated path factors through the first half. -/
theorem find?_append (fs : FsTree) (p q : FsPath) :
    fs.find? (p ++ q) = (fs.find? p).bind (fun t => t.find? q) := by
  induction p generalizing fs with
  | nil => simp [FsTree.find?]
  | cons k rest ih =>
    cases fs with
    | file d => simp [FsTree.find?]
    | dir es =>
      simp only [List.cons_append, FsTree.find?]
      cases lookupEntry es k with
      | none => simp
      | some v => simpa using ih v

/-- Any two paths are comparable: they diverge, or one extends the other. -/
theorem FsPath.diverges_or_extends (p q : FsPath) :
    FsPath.diverges p q = true ∨ (∃ r, p = q ++ r) ∨ (∃ r, q = p ++ r) := by
  induction p generalizing q with
  | nil => right; right; exact ⟨q, rfl⟩
  | cons a as ih =>
    cases q with
    | nil => right; left; exact ⟨a :: as, rfl⟩
    | cons b bs =>
      by_cases hab : a = b
      · subst hab
        rcases ih bs with h | ⟨r, hr⟩ | ⟨r, hr⟩
        · left; simp [FsPath.diverges, h]
        · right; left; exact ⟨r, by simp [hr]⟩
        · right; right; exact ⟨r, by simp [hr]⟩
      · left; simp [FsPath.diverges, hab]

/-- C2: for every name, non-`Dir` resolution and optional version,
`get_source_dir` equals the spec formula `"<group>_<name>-<hex>"`, the hex
being the SHA-256 of the name bytes, then the canonical resolution string
bytes, then the version bytes appended iff the variant is `Tar` and a
version was supplied; being a function of exactly these inputs it is pure
and stable across runs. -/
theorem get_source_dir_matches_spec (env : Env) (name : Name) (loc : DirectRes)
    (v : Option Version) (h : loc.isDir = false) :
    get_source_dir env name loc v = source_dir_name_spec env.sha name loc v := by
  cases loc with
  | dir url => simp [DirectRes.isDir] at h
  | tar url cksum =>
    cases v <;> simp [get_source_dir, source_dir_name_spec, DirectRes.isTar]
  | git url refr =>
    cases v <;> simp [get_source_dir, source_dir_name_spec, DirectRes.isTar]

theorem get_source_dir_matches_spec_witness :
    (DirectRes.tar "u" "c").isDir = false ∧
      get_source_dir envA ⟨"g", "n"⟩ (DirectRes.tar "u" "c") (some "1.0.0") =
        source_dir_name_spec envA.sha ⟨"g", "n"⟩ (DirectRes.tar "u" "c") (some "1.0.0") :=
  ⟨rfl, get_source_dir_matches_spec envA ⟨"g", "n"⟩ (DirectRes.tar "u" "c")
    (some "1.0.0") rfl⟩

/-- C9: `BuildHash::new` returns the hex SHA-256 of the concatenation, in
the graph's traversal order, of the content hashes of the sub-tree rooted at
`root`, exactly under the precondition that `root` is a member of the graph;
when `find_id` yields `none` the `unwrap` panics and no value is returned
(modelled as `none`). -/
theorem buildHash_new_requires_membership (sha : List Nat → List Nat)
    (root : Source) (sources : Graph Source) :
    (∀ i, sources.find_id root = some i →
      BuildHash.new sha root sources =
        some ⟨hexify_hash (sha (((sources.sub_tree i).map
          (fun p => strBytes p.2.hash)).flatten))⟩) ∧
    (sources.find_id root = none → BuildHash.new sha root sources = none) := by
  constructor
  · intro i hi
    simp [BuildHash.new, hi, List.flatMap_def]
  · intro h
    simp [BuildHash.new, h]

theorem buildHash_new_requires_membership_witness :
    graphA.find_id srcA = some 0 ∧
      BuildHash.new (fun l => l) srcA graphA =
        some ⟨hexify_hash (((graphA.sub_tree 0).map
          (fun p => strBytes p.2.hash)).flatten)⟩ ∧
      graphA.find_id ⟨⟨⟨"g", "z"⟩, "1.0.0"⟩, DirectRes.git "u" "m", ["p"], "h2"⟩ = none ∧
      BuildHash.new (fun l => l)
        ⟨⟨⟨"g", "z"⟩, "1.0.0"⟩, DirectRes.git "u" "m", ["p"], "h2"⟩ graphA = none :=
  ⟨by decide,
   (buildHash_new_requires_membership (fun l => l) srcA graphA).1 0 (by decide),
   by decide,
   (buildHash_new_requires_membership (fun l => l) _ graphA).2 (by decide)⟩

/-- C1: the content hash computed by `Source::from_folder` depends only on
the directory's contents: the in-memory tar is built under the fixed entry
name `"irrelevant"`, so two runs over equal directory trees — in particular
over a renamed or relocated copy of the same tree — produce equal hashes. -/
theorem from_folder_hash_determined_by_contents (env : Env) (pkg : PackageId)
    (loc : DirectRes) (p1 p2 : FsPath) (fs1 fs2 : FsTree)
    (hsub : fs1.find? p1 = fs2.find? p2)
    (hread : env.readOk (p1 ++ ["elba.toml"]) = env.readOk (p2 ++ ["elba.toml"])) :
    Except.map Source.hash (Source.from_folder env pkg p1 loc fs1) =
      Except.map Source.hash (Source.from_folder env pkg p2 loc fs2) := by
  have hfile : fs1.find? (p1 ++ ["elba.toml"]) = fs2.find? (p2 ++ ["elba.toml"]) := by
    rw [find?_append, find?_append, hsub]
  simp only [Source.from_folder, hfile, hread, hsub]
  cases fs2.find? (p2 ++ ["elba.toml"]) with
  | none => rfl
  | some t =>
    cases t with
    | dir es => rfl
    | file contents =>
      cases env.readOk (p2 ++ ["elba.toml"]) with
      | false => rfl
      | true =>
        simp only [Bool.true_eq_false, if_false]
        cases env.parseManifest contents with
        | none => rfl
        | some manifest =>
          by_cases hname : manifest.name = pkg.name <;>
            simp [hname, Except.map]

theorem from_folder_hash_determined_by_contents_witness :
    (FsTree.dir [("a", treeA)]).find? ["a"] = (FsTree.dir [("b", treeA)]).find? ["b"] ∧
      Except.map Source.hash
          (Source.from_folder envA pkgA ["a"] (DirectRes.git "u" "m")
            (FsTree.dir [("a", treeA)])) =
        Except.map Source.hash
          (Source.from_folder envA pkgA ["b"] (DirectRes.git "u" "m")
            (FsTree.dir [("b", treeA)])) :=
  ⟨rfl, from_folder_hash_determined_by_contents envA pkgA (DirectRes.git "u" "m")
    ["a"] ["b"] (FsTree.dir [("a", treeA)]) (FsTree.dir [("b", treeA)]) rfl rfl⟩

/-- C5: `Source::from_folder` fails with `MissingManifest` when
`<dir>/elba.toml` does not exist, with `InvalidIndex` when the file cannot
be read (including when the entry is a directory) or when its contents fail
to parse as a `Manifest`, and with an error mentioning both names when the
parsed name differs from the package's; each failure is an `Except.error`,
so no `Source` is returned. -/
theorem from_folder_error_cases (env : Env) (pkg : PackageId) (path : FsPath)
    (loc : DirectRes) (fs : FsTree) :
    (fs.find? (path ++ ["elba.toml"]) = none →
      Source.from_folder env pkg path loc fs = .error .missingManifest) ∧
    (∀ es, fs.find? (path ++ ["elba.toml"]) = some (.dir es) →
      Source.from_folder env pkg path loc fs = .error .invalidIndex) ∧
    (∀ c, fs.find? (path ++ ["elba.toml"]) = some (.file c) →
      env.readOk (path ++ ["elba.toml"]) = false →
      Source.from_folder env pkg path loc fs = .error .invalidIndex) ∧
    (∀ c, fs.find? (path ++ ["elba.toml"]) = some (.file c) →
      env.readOk (path ++ ["elba.toml"]) = true →
      env.parseManifest c = none →
      Source.from_folder env pkg path loc fs = .error .invalidIndex) ∧
    (∀ c m, fs.find? (path ++ ["elba.toml"]) = some (.file c) →
      env.readOk (path ++ ["elba.toml"]) = true →
      env.parseManifest c = some m →
      m.name ≠ pkg.name →
      Source.from_folder env pkg path loc fs =
        .error (.nameMismatch pkg.name m.name)) := by
  refine ⟨?_, ?_, ?_, ?_, ?_⟩
  · intro h
    simp [Source.from_folder, h]
  · intro es h
    simp [Source.from_folder, h]
  · intro c h hr
    simp [Source.from_folder, h, hr]
  · intro c h hr hp
    simp [Source.from_folder, h, hr, hp]
  · intro c m h hr hp hn
    simp [Source.from_folder, h, hr, hp, hn]

theorem from_folder_error_cases_witness :
    Source.from_folder envA pkgA [] (DirectRes.git "u" "m") (FsTree.dir []) =
        .error .missingManifest ∧
      Source.from_folder envA pkgA [] (DirectRes.git "u" "m")
          (FsTree.dir [("elba.toml", FsTree.dir [])]) = .error .invalidIndex ∧
      Source.from_folder envReadFail pkgA [] (DirectRes.git "u" "m") treeA =
        .error .invalidIndex ∧
      Source.from_folder envA pkgA [] (DirectRes.git "u" "m")
          (FsTree.dir [("elba.toml", FsTree.file "x")]) = .error .invalidIndex ∧
      Source.from_folder envA ⟨⟨"g", "z"⟩, DirectRes.git "u" "m"⟩ []
          (DirectRes.git "u" "m") treeA =
        .error (.nameMismatch ⟨"g", "z"⟩ ⟨"g", "n"⟩) :=
  ⟨(from_folder_error_cases envA pkgA [] (DirectRes.git "u" "m") (FsTree.dir [])).1
      rfl,
   (from_folder_error_cases envA pkgA [] (DirectRes.git "u" "m")
      (FsTree.dir [("elba.toml", FsTree.dir [])])).2.1 [] rfl,
   (from_folder_error_cases envReadFail pkgA [] (DirectRes.git "u" "m")
      treeA).2.2.1 "m" rfl rfl,
   (from_folder_error_cases envA pkgA [] (DirectRes.git "u" "m")
      (FsTree.dir [("elba.toml", FsTree.file "x")])).2.2.2.1 "x" rfl rfl (by decide),
   (from_folder_error_cases envA ⟨⟨"g", "z"⟩, DirectRes.git "u" "m"⟩ []
      (DirectRes.git "u" "m") treeA).2.2.2.2 "m" ⟨⟨"g", "n"⟩, "1.0.0"⟩ rfl rfl
      (by decide) (by decide)⟩

/-- C3: for a `Dir{path}` resolution, `load_source` (and hence
`checkout_source`) acquires the `DirLock` directly on the local path and
returns it: no retrieval event is emitted, the filesystem changes only by
ensuring that very path exists (so nothing is created under `layout.src`),
and the resulting `Source`'s path is the local path itself. -/
theorem load_source_dir_is_local (env : Env) (layout : Layout) (pkg : PackageId)
    (url : FsPath) (v : Option Version) (fs : FsTree)
    (hlock : env.lockOk url = true) :
    load_source env layout pkg (.dir url) v fs =
      (.ok url, acquireEffect fs url, [.acquired url]) ∧
    (∀ l d, Event.retrieved l d ∉ (load_source env layout pkg (.dir url) v fs).2.2) ∧
    (∀ t c m,
      fs.find? url = some t →
      t.find? ["elba.toml"] = some (.file c) →
      env.readOk (url ++ ["elba.toml"]) = true →
      env.parseManifest c = some m →
      m.name = pkg.name →
      (checkout_source env layout pkg (.dir url) v fs).1 =
        .ok { meta := m, location := .dir url, path := url,
              hash := hexify_hash (env.sha (env.tarArchive "irrelevant" t)) }) := by
  have hload : load_source env layout pkg (.dir url) v fs =
      (.ok url, acquireEffect fs url, [.acquired url]) := by
    simp [load_source, check_source, hlock]
  refine ⟨hload, ?_, ?_⟩
  · intro l d
    rw [hload]
    simp
  · intro t c m ht hc hr hm hname
    have hacq : acquireEffect fs url = fs := by
      simp [acquireEffect, create_dir_all, ht]
    have hfile : fs.find? (url ++ ["elba.toml"]) = some (.file c) := by
      rw [find?_append, ht]
      simpa using hc
    simp [checkout_source, hload, hacq, Source.from_folder, hfile, hr, hm, hname, ht]

theorem load_source_dir_is_local_witness :
    envA.lockOk ["d"] = true ∧
      load_source envA layoutA pkgA (.dir ["d"]) none (FsTree.dir [("d", treeA)]) =
        (.ok ["d"], acquireEffect (FsTree.dir [("d", treeA)]) ["d"], [.acquired ["d"]]) ∧
      (checkout_source envA layoutA pkgA (.dir ["d"]) none
          (FsTree.dir [("d", treeA)])).1 =
        .ok { meta := ⟨⟨"g", "n"⟩, "1.0.0"⟩, location := .dir ["d"], path := ["d"],
              hash := hexify_hash (envA.sha (envA.tarArchive "irrelevant" treeA)) } :=
  ⟨rfl,
   (load_source_dir_is_local envA layoutA pkgA ["d"] none
      (FsTree.dir [("d", treeA)]) rfl).1,
   (load_source_dir_is_local envA layoutA pkgA ["d"] none
      (FsTree.dir [("d", treeA)]) rfl).2.2 treeA "m" ⟨⟨"g", "n"⟩, "1.0.0"⟩
      rfl rfl rfl rfl rfl⟩

theorem FsPath.diverges_symm (p q : FsPath) (h : FsPath.diverges p q = true) :
    FsPath.diverges q p = true := by
  induction p generalizing q with
  | nil => exact absurd h (by simp [FsPath.diverges])
  | cons a as ih =>
    cases q with
    | nil => rw [FsPath.diverges_nil] at h; exact absurd h (by simp)
    | cons b bs =>
      simp only [FsPath.diverges] at h ⊢
      by_cases hab : a = b
      · subst hab
        rw [if_pos rfl] at h
        rw [if_pos rfl]
        exact ih _ h
      · rw [if_neg (fun hba => hab hba.symm)]

theorem create_dir_all_isSome_self (fs : FsTree) (p : FsPath) :
    ((create_dir_all fs p).find? p).isSome = true := by
  unfold create_dir_all
  split
  · assumption
  · simp [find?_setAt_self]

theorem find?_isSome_of_append (fs : FsTree) (p r : FsPath)
    (h : (fs.find? (p ++ r)).isSome = true) : (fs.find? p).isSome = true := by
  rw [find?_append] at h
  cases hp : fs.find? p with
  | none => rw [hp] at h; simp at h
  | some u => simp

theorem create_dir_all_isSome_mono (fs : FsTree) (p q : FsPath)
    (h : (fs.find? q).isSome = true) :
    ((create_dir_all fs p).find? q).isSome = true := by
  unfold create_dir_all
  split
  · exact h
  · rename_i hnone
    rcases FsPath.diverges_or_extends p q with hd | ⟨r, hr⟩ | ⟨r, hr⟩
    · rw [find?_setAt_diverges _ _ _ _ hd]
      exact h
    · subst hr
      obtain ⟨u, hu⟩ := Option.isSome_iff_exists.mp h
      rw [find?_setAt_append fs q r u _ hu]
      simp
    · subst hr
      exact absurd (find?_isSome_of_append fs p r h) hnone

theorem tryCreate_isSome_self (env : Env) (fs : FsTree) (p : FsPath)
    (h : env.mkdirOk p = true) : ((tryCreate env fs p).find? p).isSome = true := by
  unfold tryCreate
  rw [h]
  simp [create_dir_all_isSome_self]

theorem tryCreate_isSome_mono (env : Env) (fs : FsTree) (p q : FsPath)
    (h : (fs.find? q).isSome = true) :
    ((tryCreate env fs p).find? q).isSome = true := by
  unfold tryCreate
  split
  · exact create_dir_all_isSome_mono _ _ _ h
  · exact h

theorem tryCreate_of_isSome (env : Env) (fs : FsTree) (p : FsPath)
    (h : (fs.find? p).isSome = true) : tryCreate env fs p = fs := by
  unfold tryCreate create_dir_all
  split <;> simp [h]

/-- C10: `store_build` clears the previously stored build keyed by `h` before
the recursive copy; when the copy then fails, the error is propagated but the
old build has already been erased — the operation is not atomic and the
build-cache state is not left unchanged on error. -/
theorem store_build_not_atomic (env : Env) (layout : Layout) (fr : FsPath)
    (hb : BuildHash) (fs : FsTree) (told : FsTree)
    (hold : fs.find? (layout.build ++ [hb.val]) = some told)
    (hne : told ≠ .dir [])
    (hlock : env.lockOk (layout.build ++ [hb.val]) = true)
    (hclear : env.clearOk (layout.build ++ [hb.val]) = true)
    (hcopy : env.copyOk fr (layout.build ++ [hb.val]) = false) :
    (store_build env layout fr hb fs).1 = .error .io ∧
    (store_build env layout fr hb fs).2.find? (layout.build ++ [hb.val]) =
      some (.dir []) ∧
    (store_build env layout fr hb fs).2.find? (layout.build ++ [hb.val]) ≠
      fs.find? (layout.build ++ [hb.val]) := by
  have hex : (fs.find? (layout.build ++ [hb.val])).isSome = true := by
    rw [hold]; rfl
  have hrun : store_build env layout fr hb fs =
      (.error .io, fs.setAt (layout.build ++ [hb.val]) (.dir [])) := by
    simp [store_build, hex, hlock, hclear, hcopy, acquireEffect, create_dir_all,
      clear_dir]
  refine ⟨by rw [hrun], by rw [hrun]; exact find?_setAt_self _ _ _, ?_⟩
  rw [hrun, hold]
  rw [find?_setAt_self]
  intro hcontra
  injection hcontra with h'
  exact hne h'.symm

theorem store_build_not_atomic_witness :
    (FsTree.dir [("c", FsTree.dir [("build", FsTree.dir [("h",
        FsTree.dir [("old", FsTree.file "o")])])])]).find?
          (layoutA.build ++ ["h"]) =
        some (FsTree.dir [("old", FsTree.file "o")]) ∧
      (store_build envCopyFail layoutA ["out"] ⟨"h"⟩
          (FsTree.dir [("c", FsTree.dir [("build", FsTree.dir [("h",
            FsTree.dir [("old", FsTree.file "o")])])])])).1 = .error .io ∧
      (store_build envCopyFail layoutA ["out"] ⟨"h"⟩
          (FsTree.dir [("c", FsTree.dir [("build", FsTree.dir [("h",
            FsTree.dir [("old", FsTree.file "o")])])])])).2.find?
          (layoutA.build ++ ["h"]) = some (.dir []) := by
  have h := store_build_not_atomic envCopyFail layoutA ["out"] ⟨"h"⟩
    (FsTree.dir [("c", FsTree.dir [("build", FsTree.dir [("h",
      FsTree.dir [("old", FsTree.file "o")])])])])
    (FsTree.dir [("old", FsTree.file "o")]) rfl
    (by intro h; injection h with h'; simp at h') rfl rfl rfl
  exact ⟨rfl, h.1, h.2.1⟩

theorem store_build_ok (env : Env) (layout : Layout) (fr : FsPath) (hb : BuildHash)
    (fs t : FsTree) (hfr : fs.find? fr = some t)
    (hdiv : FsPath.diverges (layout.build ++ [hb.val]) fr = true)
    (hlock : env.lockOk (layout.build ++ [hb.val]) = true)
    (hclear : env.clearOk (layout.build ++ [hb.val]) = true)
    (hcopy : env.copyOk fr (layout.build ++ [hb.val]) = true) :
    (store_build env layout fr hb fs).1 = .ok ⟨layout.build ++ [hb.val]⟩ ∧
    (store_build env layout fr hb fs).2.find? (layout.build ++ [hb.val]) = some t := by
  by_cases hex : (fs.find? (layout.build ++ [hb.val])).isSome = true
  · have hfr2 : (fs.setAt (layout.build ++ [hb.val]) (.dir [])).find? fr = some t := by
      rw [find?_setAt_diverges _ _ _ _ hdiv]
      exact hfr
    have hrun : store_build env layout fr hb fs =
        (.ok ⟨layout.build ++ [hb.val]⟩,
          (fs.setAt (layout.build ++ [hb.val]) (.dir [])).setAt
            (layout.build ++ [hb.val]) t) := by
      simp [store_build, hex, hlock, hclear, hcopy, acquireEffect, create_dir_all,
        clear_dir, copy_dir, hfr2]
    rw [hrun]
    exact ⟨rfl, find?_setAt_self _ _ _⟩
  · have hex' : (fs.find? (layout.build ++ [hb.val])).isSome = false := by
      simpa using hex
    have hfr3 : ((fs.setAt (layout.build ++ [hb.val]) (.dir [])).setAt
        (layout.build ++ [hb.val]) (.dir [])).find? fr = some t := by
      rw [find?_setAt_diverges _ _ _ _ hdiv, find?_setAt_diverges _ _ _ _ hdiv]
      exact hfr
    have hrun : store_build env layout fr hb fs =
        (.ok ⟨layout.build ++ [hb.val]⟩,
          ((fs.setAt (layout.build ++ [hb.val]) (.dir [])).setAt
            (layout.build ++ [hb.val]) (.dir [])).setAt
            (layout.build ++ [hb.val]) t) := by
      simp [store_build, hex', hlock, hclear, hcopy, acquireEffect, create_dir_all,
        clear_dir, copy_dir, hfr3, find?_setAt_self]
    rw [hrun]
    exact ⟨rfl, find?_setAt_self _ _ _⟩

/-- C6: on the standard layout, a successful `store_build(from, h)` ensures
`layout.build/<h>` exists, acquires its lock, clears it and recursively
copies `from` into it; a subsequent `checkout_build(h)` then returns
`some Binary` on that directory, whose contents equal the contents of
`from`. -/
theorem store_build_then_checkout_build (env : Env) (root fr : FsPath)
    (hb : BuildHash) (fs t : FsTree)
    (hfr : fs.find? fr = some t)
    (hdiv : FsPath.diverges ((Layout.new root).build ++ [hb.val]) fr = true)
    (hlock : env.lockOk ((Layout.new root).build ++ [hb.val]) = true)
    (hclear : env.clearOk ((Layout.new root).build ++ [hb.val]) = true)
    (hcopy : env.copyOk fr ((Layout.new root).build ++ [hb.val]) = true) :
    (store_build env (Layout.new root) fr hb fs).1 =
      .ok ⟨(Layout.new root).build ++ [hb.val]⟩ ∧
    (checkout_build env (Layout.new root) hb
        (store_build env (Layout.new root) fr hb fs).2).1 =
      .ok (some ⟨(Layout.new root).build ++ [hb.val]⟩) ∧
    (store_build env (Layout.new root) fr hb fs).2.find?
        ((Layout.new root).build ++ [hb.val]) = fs.find? fr := by
  obtain ⟨h1, h2⟩ :=
    store_build_ok env (Layout.new root) fr hb fs t hfr hdiv hlock hclear hcopy
  refine ⟨h1, ?_, by rw [h2, hfr]⟩
  have hcb : check_build (Layout.new root) hb
      (store_build env (Layout.new root) fr hb fs).2 =
      some ((Layout.new root).build ++ [hb.val]) := by
    show (if ((store_build env (Layout.new root) fr hb fs).2.find?
        ((Layout.new root).root ++ ["build"] ++ [hb.val])).isSome = true then
        some ((Layout.new root).root ++ ["build"] ++ [hb.val]) else none) =
      some ((Layout.new root).build ++ [hb.val])
    rw [show (Layout.new root).root ++ ["build"] ++ [hb.val] =
        (Layout.new root).build ++ [hb.val] from rfl, h2]
    rfl
  simp [checkout_build, hcb, hlock]

theorem store_build_then_checkout_build_witness :
    (FsTree.dir [("out", FsTree.dir [("f", FsTree.file "z")])]).find? ["out"] =
        some (FsTree.dir [("f", FsTree.file "z")]) ∧
      (store_build envA (Layout.new ["c"]) ["out"] ⟨"h"⟩
          (FsTree.dir [("out", FsTree.dir [("f", FsTree.file "z")])])).1 =
        .ok ⟨(Layout.new ["c"]).build ++ ["h"]⟩ ∧
      (checkout_build envA (Layout.new ["c"]) ⟨"h"⟩
          (store_build envA (Layout.new ["c"]) ["out"] ⟨"h"⟩
            (FsTree.dir [("out", FsTree.dir [("f", FsTree.file "z")])])).2).1 =
        .ok (some ⟨(Layout.new ["c"]).build ++ ["h"]⟩) ∧
      (store_build envA (Layout.new ["c"]) ["out"] ⟨"h"⟩
          (FsTree.dir [("out", FsTree.dir [("f", FsTree.file "z")])])).2.find?
          ((Layout.new ["c"]).build ++ ["h"]) =
        (FsTree.dir [("out", FsTree.dir [("f", FsTree.file "z")])]).find? ["out"] := by
  have h := store_build_then_checkout_build envA ["c"] ["out"] ⟨"h"⟩
    (FsTree.dir [("out", FsTree.dir [("f", FsTree.file "z")])])
    (FsTree.dir [("f", FsTree.file "z")]) rfl rfl rfl rfl rfl
  exact ⟨rfl, h.1, h.2.1, h.2.2⟩

/-- C7 fails as stated: with every OS call succeeding, `checkout_tmp` on an
empty cache returns the `OutputLayout` rooted at `tmp/<h>`, yet that root
directory is not empty — `OutputLayout::new` has just created the `bin`,
`lib`, `build` and `deps` subdirectories inside it. -/
theorem checkout_tmp_root_not_empty :
    (checkout_tmp envA layoutA ⟨"h"⟩ (FsTree.dir [])).1 =
      .ok (outputLayoutOf ["c", "tmp", "h"]) ∧
    (checkout_tmp envA layoutA ⟨"h"⟩ (FsTree.dir [])).2.find? ["c", "tmp", "h"] ≠
      some (.dir []) := by
  refine ⟨rfl, ?_⟩
  intro hcontra
  rw [show (checkout_tmp envA layoutA ⟨"h"⟩ (FsTree.dir [])).2.find? ["c", "tmp", "h"] =
      some (FsTree.dir [("bin", .dir []), ("lib", .dir []), ("build", .dir []),
        ("deps", .dir [])]) from rfl] at hcontra
  injection hcontra with h1
  injection h1 with h2
  simp at h2

/-- C7 (amended): `checkout_tmp(h)` acquires the lock on `layout.tmp/<h>`,
clears that directory, and wraps it in an `OutputLayout`; the returned
root's contents are exactly the four freshly created empty subdirectories
`bin`, `lib`, `build`, `deps` — independent of any contents left there by
previous uses. -/
theorem checkout_tmp_fresh_tree (env : Env) (layout : Layout) (hb : BuildHash)
    (fs : FsTree)
    (hlock : env.lockOk (layout.tmp ++ [hb.val]) = true)
    (hclear : env.clearOk (layout.tmp ++ [hb.val]) = true)
    (hbin : env.mkdirOk (layout.tmp ++ [hb.val] ++ ["bin"]) = true)
    (hlib : env.mkdirOk (layout.tmp ++ [hb.val] ++ ["lib"]) = true)
    (hbuild : env.mkdirOk (layout.tmp ++ [hb.val] ++ ["build"]) = true)
    (hdeps : env.mkdirOk (layout.tmp ++ [hb.val] ++ ["deps"]) = true) :
    (checkout_tmp env layout hb fs).1 =
      .ok (outputLayoutOf (layout.tmp ++ [hb.val])) ∧
    (checkout_tmp env layout hb fs).2.find? (layout.tmp ++ [hb.val]) =
      some (.dir [("bin", .dir []), ("lib", .dir []), ("build", .dir []),
        ("deps", .dir [])]) := by
  set tp := layout.tmp ++ [hb.val] with htp
  set s0 := (acquireEffect fs tp).setAt tp (.dir []) with hs0
  have h0 : s0.find? tp = some (.dir []) := find?_setAt_self _ _ _
  -- create bin
  have hbin0 : (s0.find? (tp ++ ["bin"])).isSome = false := by
    rw [find?_append, h0]
    rfl
  have hs1 : tryCreate env s0 (tp ++ ["bin"]) = s0.setAt (tp ++ ["bin"]) (.dir []) := by
    unfold tryCreate create_dir_all
    rw [hbin, hbin0]
    simp
  have h1 : (s0.setAt (tp ++ ["bin"]) (.dir [])).find? tp =
      some (.dir [("bin", .dir [])]) := by
    rw [find?_setAt_append _ _ _ _ _ h0]
    rfl
  set s1 := s0.setAt (tp ++ ["bin"]) (.dir []) with hs1d
  -- create lib
  have hlib0 : (s1.find? (tp ++ ["lib"])).isSome = false := by
    rw [find?_append, h1]
    rfl
  have hs2 : tryCreate env s1 (tp ++ ["lib"]) = s1.setAt (tp ++ ["lib"]) (.dir []) := by
    unfold tryCreate create_dir_all
    rw [hlib, hlib0]
    simp
  have h2 : (s1.setAt (tp ++ ["lib"]) (.dir [])).find? tp =
      some (.dir [("bin", .dir []), ("lib", .dir [])]) := by
    rw [find?_setAt_append _ _ _ _ _ h1]
    rfl
  set s2 := s1.setAt (tp ++ ["lib"]) (.dir []) with hs2d
  -- create build
  have hbuild0 : (s2.find? (tp ++ ["build"])).isSome = false := by
    rw [find?_append, h2]
    rfl
  have hs3 : tryCreate env s2 (tp ++ ["build"]) =
      s2.setAt (tp ++ ["build"]) (.dir []) := by
    unfold tryCreate create_dir_all
    rw [hbuild, hbuild0]
    simp
  have h3 : (s2.setAt (tp ++ ["build"]) (.dir [])).find? tp =
      some (.dir [("bin", .dir []), ("lib", .dir []), ("build", .dir [])]) := by
    rw [find?_setAt_append _ _ _ _ _ h2]
    rfl
  set s3 := s2.setAt (tp ++ ["build"]) (.dir []) with hs3d
  -- create deps
  have hdeps0 : (s3.find? (tp ++ ["deps"])).isSome = false := by
    rw [find?_append, h3]
    rfl
  have hs4 : tryCreate env s3 (tp ++ ["deps"]) =
      s3.setAt (tp ++ ["deps"]) (.dir []) := by
    unfold tryCreate create_dir_all
    rw [hdeps, hdeps0]
    simp
  have h4 : (s3.setAt (tp ++ ["deps"]) (.dir [])).find? tp =
      some (.dir [("bin", .dir []), ("lib", .dir []), ("build", .dir []),
        ("deps", .dir [])]) := by
    rw [find?_setAt_append _ _ _ _ _ h3]
    rfl
  -- the root tryCreate is the identity: the root already exists
  have hroot : tryCreate env s0 tp = s0 :=
    tryCreate_of_isSome env s0 tp (by rw [h0]; rfl)
  have hrun : checkout_tmp env layout hb fs =
      (.ok (outputLayoutOf tp), s3.setAt (tp ++ ["deps"]) (.dir [])) := by
    simp only [checkout_tmp, hlock, if_true, hclear, clear_dir, OutputLayout.new,
      outputLayoutOf]
    rw [← htp, ← hs0, hroot, hs1, hs2, hs3, hs4]
  rw [hrun]
  exact ⟨rfl, h4⟩

theorem checkout_tmp_fresh_tree_witness :
    envA.lockOk (layoutA.tmp ++ ["h"]) = true ∧
      (checkout_tmp envA layoutA ⟨"h"⟩
          (FsTree.dir [("c", FsTree.dir [("tmp", FsTree.dir [("h",
            FsTree.dir [("stale", FsTree.file "s")])])])])).1 =
        .ok (outputLayoutOf (layoutA.tmp ++ ["h"])) ∧
      (checkout_tmp envA layoutA ⟨"h"⟩
          (FsTree.dir [("c", FsTree.dir [("tmp", FsTree.dir [("h",
            FsTree.dir [("stale", FsTree.file "s")])])])])).2.find?
          (layoutA.tmp ++ ["h"]) =
        some (.dir [("bin", .dir []), ("lib", .dir []), ("build", .dir []),
          ("deps", .dir [])]) := by
  have h := checkout_tmp_fresh_tree envA layoutA ⟨"h"⟩
    (FsTree.dir [("c", FsTree.dir [("tmp", FsTree.dir [("h",
      FsTree.dir [("stale", FsTree.file "s")])])])]) rfl rfl rfl rfl rfl rfl
  exact ⟨rfl, h.1, h.2⟩

/-- C8 fails as stated: with directory creation always permitted,
`OutputLayout::new` on an empty filesystem records the `artifacts` path and
creates `bin`, but never attempts to create `artifacts`: that directory does
not exist afterwards. -/
theorem outputLayout_artifacts_not_created :
    (OutputLayout.new envA ["t"] (FsTree.dir [])).1.artifacts = ["t", "artifacts"] ∧
    ((OutputLayout.new envA ["t"] (FsTree.dir [])).2.find? ["t", "bin"]).isSome = true ∧
    (OutputLayout.new envA ["t"] (FsTree.dir [])).2.find? ["t", "artifacts"] = none :=
  ⟨rfl, rfl, rfl⟩

/-- C8 (amended): `OutputLayout::new(lock)` records the six per-build paths
and attempts to create the directories `root`, `bin`, `lib`, `build` and
`deps` under the locked root — but not `artifacts` — tolerating creation
failures silently: the record is returned whatever the outcomes. -/
theorem outputLayout_new_creates (env : Env) (root : FsPath) (fs : FsTree) :
    (OutputLayout.new env root fs).1 = outputLayoutOf root ∧
    (env.mkdirOk root = true →
     env.mkdirOk (root ++ ["bin"]) = true →
     env.mkdirOk (root ++ ["lib"]) = true →
     env.mkdirOk (root ++ ["build"]) = true →
     env.mkdirOk (root ++ ["deps"]) = true →
     (((OutputLayout.new env root fs).2.find? root).isSome = true ∧
      ((OutputLayout.new env root fs).2.find? (root ++ ["bin"])).isSome = true ∧
      ((OutputLayout.new env root fs).2.find? (root ++ ["lib"])).isSome = true ∧
      ((OutputLayout.new env root fs).2.find? (root ++ ["build"])).isSome = true ∧
      ((OutputLayout.new env root fs).2.find? (root ++ ["deps"])).isSome = true)) := by
  constructor
  · rfl
  · intro hroot hbin hlib hbuild hdeps
    have hfs2 : (OutputLayout.new env root fs).2 =
        tryCreate env (tryCreate env (tryCreate env (tryCreate env
          (tryCreate env fs root) (root ++ ["bin"])) (root ++ ["lib"]))
          (root ++ ["build"])) (root ++ ["deps"]) := rfl
    rw [hfs2]
    refine ⟨?_, ?_, ?_, ?_, ?_⟩
    · exact tryCreate_isSome_mono _ _ _ _ (tryCreate_isSome_mono _ _ _ _
        (tryCreate_isSome_mono _ _ _ _ (tryCreate_isSome_mono _ _ _ _
          (tryCreate_isSome_self _ _ _ hroot))))
    · exact tryCreate_isSome_mono _ _ _ _ (tryCreate_isSome_mono _ _ _ _
        (tryCreate_isSome_mono _ _ _ _ (tryCreate_isSome_self _ _ _ hbin)))
    · exact tryCreate_isSome_mono _ _ _ _ (tryCreate_isSome_mono _ _ _ _
        (tryCreate_isSome_self _ _ _ hlib))
    · exact tryCreate_isSome_mono _ _ _ _ (tryCreate_isSome_self _ _ _ hbuild)
    · exact tryCreate_isSome_self _ _ _ hdeps

theorem outputLayout_new_creates_witness :
    envA.mkdirOk ["t"] = true ∧
      (OutputLayout.new envA ["t"] (FsTree.dir [])).1 = outputLayoutOf ["t"] ∧
      (((OutputLayout.new envA ["t"] (FsTree.dir [])).2.find? ["t", "deps"]).isSome =
        true) := by
  have h := outputLayout_new_creates envA ["t"] (FsTree.dir [])
  exact ⟨rfl, h.1, (h.2 rfl rfl rfl rfl rfl).2.2.2.2⟩

/-- One iteration of the `get_indices` worklist loop on a fresh queue head is
exactly: skip when seen, otherwise one `indexAttempt` — push the dependents
at the back and append the index on success, silently continue on failure. -/
theorem getIndicesAux_step (env : Env) (layout : Layout) (n : Nat) (res : DirectRes)
    (rest seen : List DirectRes) (acc : List Index) :
    getIndicesAux env layout (n + 1) (res :: rest) seen acc =
      if res ∈ seen then getIndicesAux env layout n rest seen acc
      else
        match indexAttempt env layout res with
        | some deps =>
          getIndicesAux env layout n (rest ++ deps) (seen ++ [res])
            (acc ++ [⟨res, deps⟩])
        | none => getIndicesAux env layout n rest seen acc := by
  by_cases hs : res ∈ seen
  · simp [getIndicesAux, hs]
  · cases res with
    | dir url =>
      by_cases hl : env.lockOk url = true
      · cases hd : env.indexFromDisk (DirectRes.dir url) <;>
          simp [getIndicesAux, hs, indexAttempt, hl, hd]
      · have hl' : env.lockOk url = false := by simpa using hl
        simp [getIndicesAux, hs, indexAttempt, hl']
    | tar url cksum =>
      by_cases hl : env.lockOk
          (layout.indices ++ [get_index_dir env (DirectRes.tar url cksum)]) = true
      · by_cases he : env.indexDirExists (DirectRes.tar url cksum) = true
        · cases hd : env.indexFromDisk (DirectRes.tar url cksum) <;>
            simp [getIndicesAux, hs, indexAttempt, hl, he, hd]
        · have he' : env.indexDirExists (DirectRes.tar url cksum) = false := by
            simpa using he
          by_cases hr : env.retrieveOk (DirectRes.tar url cksum) = true
          · cases hd : env.indexFromDisk (DirectRes.tar url cksum) <;>
              simp [getIndicesAux, hs, indexAttempt, hl, he', hr, hd]
          · have hr' : env.retrieveOk (DirectRes.tar url cksum) = false := by
              simpa using hr
            simp [getIndicesAux, hs, indexAttempt, hl, he', hr']
      · have hl' : env.lockOk
            (layout.indices ++ [get_index_dir env (DirectRes.tar url cksum)]) = false := by
          simpa using hl
        simp [getIndicesAux, hs, indexAttempt, hl']
    | git url refr =>
      by_cases hl : env.lockOk
          (layout.indices ++ [get_index_dir env (DirectRes.git url refr)]) = true
      · by_cases he : env.indexDirExists (DirectRes.git url refr) = true
        · cases hd : env.indexFromDisk (DirectRes.git url refr) <;>
            simp [getIndicesAux, hs, indexAttempt, hl, he, hd]
        · have he' : env.indexDirExists (DirectRes.git url refr) = false := by
            simpa using he
          by_cases hr : env.retrieveOk (DirectRes.git url refr) = true
          · cases hd : env.indexFromDisk (DirectRes.git url refr) <;>
              simp [getIndicesAux, hs, indexAttempt, hl, he', hr, hd]
          · have hr' : env.retrieveOk (DirectRes.git url refr) = false := by
              simpa using hr
            simp [getIndicesAux, hs, indexAttempt, hl, he', hr']
      · have hl' : env.lockOk
            (layout.indices ++ [get_index_dir env (DirectRes.git url refr)]) = false := by
          simpa using hl
        simp [getIndicesAux, hs, indexAttempt, hl']

/-- The result accumulator is a pure prefix: what the loop produces is
appended after what was already collected, in order. -/
theorem getIndicesAux_acc (env : Env) (layout : Layout) (fuel : Nat) :
    ∀ (q seen : List DirectRes) (acc : List Index),
      getIndicesAux env layout fuel q seen acc =
        acc ++ getIndicesAux env layout fuel q seen [] := by
  induction fuel with
  | zero => intro q seen acc; simp [getIndicesAux]
  | succ n ih =>
    intro q seen acc
    cases q with
    | nil => simp [getIndicesAux]
    | cons res rest =>
      rw [getIndicesAux_step, getIndicesAux_step]
      by_cases hs : res ∈ seen
      · simp only [if_pos hs]
        exact ih rest seen acc
      · simp only [if_neg hs]
        cases hd : indexAttempt env layout res with
        | none => exact ih rest seen acc
        | some deps =>
          simp only []
          rw [ih (rest ++ deps) (seen ++ [res]) (acc ++ [Index.mk res deps]),
            ih (rest ++ deps) (seen ++ [res]) ([] ++ [Index.mk res deps])]
          simp

/-- Resolutions accumulated by the loop extend `seen` without ever
duplicating: the combined list stays duplicate-free. -/
theorem getIndicesAux_nodup (env : Env) (layout : Layout) (fuel : Nat) :
    ∀ (q seen : List DirectRes), seen.Nodup →
      (seen ++ (getIndicesAux env layout fuel q seen []).map Index.res).Nodup := by
  induction fuel with
  | zero =>
    intro q seen h
    simpa [getIndicesAux]
  | succ n ih =>
    intro q seen h
    cases q with
    | nil => simpa [getIndicesAux]
    | cons res rest =>
      rw [getIndicesAux_step]
      by_cases hs : res ∈ seen
      · simp only [if_pos hs]
        exact ih rest seen h
      · simp only [if_neg hs]
        cases hd : indexAttempt env layout res with
        | none => exact ih rest seen h
        | some deps =>
          simp only []
          rw [getIndicesAux_acc]
          have hseen : (seen ++ [res]).Nodup := by
            simp [List.nodup_append, h, hs]
          have hrec := ih (rest ++ deps) (seen ++ [res]) hseen
          simpa [List.append_assoc] using hrec

/-- C4: `get_indices` is breadth-first worklist discovery over the transitive
index graph: (i) the returned indices carry pairwise-distinct resolutions —
each discovered `DirectRes` is returned at most once; (ii) results are
appended after what was already collected, preserving discovery order;
(iii) a resolution already seen is skipped; (iv) a fresh resolution that
fails (lock contention, retrieval failure, parse failure) is silently
skipped and the loop continues; (v) a fresh resolution that succeeds has its
dependents pushed at the back of the FIFO queue — breadth-first — and its
index appended to the result. -/
theorem get_indices_bfs (env : Env) (layout : Layout) :
    (∀ fuel seeds, ((get_indices env layout fuel seeds).map Index.res).Nodup) ∧
    (∀ fuel q seen acc, getIndicesAux env layout fuel q seen acc =
      acc ++ getIndicesAux env layout fuel q seen []) ∧
    (∀ fuel res rest seen acc, res ∈ seen →
      getIndicesAux env layout (fuel + 1) (res :: rest) seen acc =
        getIndicesAux env layout fuel rest seen acc) ∧
    (∀ fuel res rest seen acc, res ∉ seen → indexAttempt env layout res = none →
      getIndicesAux env layout (fuel + 1) (res :: rest) seen acc =
        getIndicesAux env layout fuel rest seen acc) ∧
    (∀ fuel res rest seen acc deps, res ∉ seen →
      indexAttempt env layout res = some deps →
      getIndicesAux env layout (fuel + 1) (res :: rest) seen acc =
        getIndicesAux env layout fuel (rest ++ deps) (seen ++ [res])
          (acc ++ [⟨res, deps⟩])) := by
  refine ⟨?_, getIndicesAux_acc env layout, ?_, ?_, ?_⟩
  · intro fuel seeds
    simpa using getIndicesAux_nodup env layout fuel seeds [] List.nodup_nil
  · intro fuel res rest seen acc hs
    rw [getIndicesAux_step, if_pos hs]
  · intro fuel res rest seen acc hs hd
    rw [getIndicesAux_step, if_neg hs, hd]
  · intro fuel res rest seen acc deps hs hd
    rw [getIndicesAux_step, if_neg hs, hd]

theorem get_indices_bfs_witness :
    ((get_indices envB layoutA 3 [DirectRes.git "a" "m"]).map Index.res).Nodup ∧
    DirectRes.git "a" "m" ∉ ([] : List DirectRes) ∧
    indexAttempt envB layoutA (DirectRes.git "a" "m") =
      some [DirectRes.git "b" "m"] ∧
    getIndicesAux envB layoutA 1 [DirectRes.git "a" "m"] [] [] =
      getIndicesAux envB layoutA 0 ([] ++ [DirectRes.git "b" "m"])
        ([] ++ [DirectRes.git "a" "m"])
        ([] ++ [⟨DirectRes.git "a" "m", [DirectRes.git "b" "m"]⟩]) ∧
    DirectRes.git "a" "m" ∈ [DirectRes.git "a" "m"] ∧
    getIndicesAux envB layoutA 1 [DirectRes.git "a" "m"] [DirectRes.git "a" "m"] [] =
      getIndicesAux envB layoutA 0 [] [DirectRes.git "a" "m"] [] :=
  ⟨(get_indices_bfs envB layoutA).1 3 [DirectRes.git "a" "m"],
   by decide,
   rfl,
   (get_indices_bfs envB layoutA).2.2.2.2 0 (DirectRes.git "a" "m") [] [] []
     [DirectRes.git "b" "m"] (by decide) rfl,
   by decide,
   (get_indices_bfs envB layoutA).2.2.1 0 (DirectRes.git "a" "m") []
     [DirectRes.git "a" "m"] [] (by decide)⟩
